import Mathlib

/-!
Verification of the reference oracle of the notebook
`Gradients_and_Vector_Jacobian_Products.ipynb`: the two-stage elementwise
model `h(x) = exp(x^2)` with sum-of-squares loss, its hand-derived
first- and second-order derivative quantities, and the secondary
cross-term example `g(v) = v[::-1] * arange(1, N+1)`.

Vectors are embedded as `List ℝ` (mirroring the 1-D numpy arrays) for the
elementwise operations, and as `Fin n → ℝ` where Jacobians and Hessians
are computed as genuine derivatives via Mathlib's `deriv`.
-/

noncomputable section

namespace Oracle

open Real

/-- First stage of the model, from the notebook cell `f1 = lambda g: g ** 2`
(elementwise square). -/
def f1 (v : List ℝ) : List ℝ := v.map (fun a => a ^ 2)

/-- Second stage of the model, from the notebook cell
`f2 = lambda g: np.exp(g)` (elementwise exponential). -/
def f2 (v : List ℝ) : List ℝ := v.map Real.exp

/-- The prediction function, from the notebook cell `h = lambda x: f2(f1(x))`. -/
def h (x : List ℝ) : List ℝ := f2 (f1 x)

/-- The forward pass, returning the intermediate value `f1` and the
prediction `h` as a pair (the spec's `forward(x) -> (f1, h)`). -/
def forward (x : List ℝ) : List ℝ × List ℝ := (f1 x, h x)

/-- The sum-of-squares loss, from the notebook cell
`L = lambda h, y: np.sum((h - y) ** 2)`. -/
def L (hv y : List ℝ) : ℝ := (List.zipWith (fun a b => (a - b) ^ 2) hv y).sum

/-- The loss as a function of the input, from the notebook cell
`L_x = lambda x, y: np.sum((h(x) - y) ** 2)`. -/
def L_x (x y : List ℝ) : ℝ := L (h x) y

/-- Gradient of the loss with respect to the prediction, from the notebook's
hand-derived closed form `J_L_h = [2 * (h1 - y1), 2 * (h2 - y2)]`
(elementwise `2 * (h[i] - y[i])`). -/
def grad_L_wrt_h (hv y : List ℝ) : List ℝ :=
  List.zipWith (fun a b => 2 * (a - b)) hv y

/-- VJP of the second stage: application of the notebook's hand-derived
diagonal Jacobian `J_f2_f1 = diag(exp(x_i^2))` to a vector `v`. -/
def vjp_h_wrt_f1 (x v : List ℝ) : List ℝ :=
  List.zipWith (fun a b => Real.exp (a ^ 2) * b) x v

/-- VJP of the first stage: application of the notebook's hand-derived
diagonal Jacobian `J_f1_x = diag(2 * x_i)` to a vector `v`. -/
def vjp_f1_wrt_x (x v : List ℝ) : List ℝ :=
  List.zipWith (fun a b => 2 * a * b) x v

/-- Gradient of the loss with respect to the input, built as the nested
composition of the stepwise VJPs exactly as in the notebook cell
`J_L_x_explicit = vjp_f1_x_func(vjp_h_f1_func(J_L_h))`. -/
def grad_L_wrt_x (x y : List ℝ) : List ℝ :=
  vjp_f1_wrt_x x (vjp_h_wrt_f1 x (grad_L_wrt_h (h x) y))

/-- Length-validating wrapper for `L`. Modelled from the spec: the notebook
itself performs no explicit length validation (an `InvalidInput` failure on
mismatched lengths is the spec's contract for every two-vector operation);
the `none` result stands for the raised `InvalidInput`. -/
def lossE (hv y : List ℝ) : Option ℝ :=
  if hv.length = y.length then some (L hv y) else none

/-- Length-validating wrapper for `grad_L_wrt_h`. Modelled from the spec:
`none` stands for `InvalidInput` on mismatched lengths. -/
def grad_L_wrt_hE (hv y : List ℝ) : Option (List ℝ) :=
  if hv.length = y.length then some (grad_L_wrt_h hv y) else none

/-- Length-validating wrapper for `vjp_h_wrt_f1`. Modelled from the spec:
`none` stands for `InvalidInput` on mismatched lengths. -/
def vjp_h_wrt_f1E (x v : List ℝ) : Option (List ℝ) :=
  if x.length = v.length then some (vjp_h_wrt_f1 x v) else none

/-- Length-validating wrapper for `vjp_f1_wrt_x`. Modelled from the spec:
`none` stands for `InvalidInput` on mismatched lengths. -/
def vjp_f1_wrt_xE (x v : List ℝ) : Option (List ℝ) :=
  if x.length = v.length then some (vjp_f1_wrt_x x v) else none

/-- Indexing through `List.zipWith` in terms of `getD`. -/
lemma getD_zipWith (f : ℝ → ℝ → ℝ) (as bs : List ℝ) (i : ℕ)
    (h1 : i < as.length) (h2 : i < bs.length) :
    (List.zipWith f as bs).getD i 0 = f (as.getD i 0) (bs.getD i 0) := by
  have hz : i < (List.zipWith f as bs).length := by
    rw [List.length_zipWith]; omega
  rw [List.getD_eq_getElem _ _ hz, List.getD_eq_getElem _ _ h1,
    List.getD_eq_getElem _ _ h2, List.getElem_zipWith]

/-- Indexing through `List.map` in terms of `getD`. -/
lemma getD_map (f : ℝ → ℝ) (l : List ℝ) (i : ℕ) (hl : i < l.length) :
    (l.map f).getD i 0 = f (l.getD i 0) := by
  have hm : i < (l.map f).length := by simpa using hl
  rw [List.getD_eq_getElem _ _ hm, List.getD_eq_getElem _ _ hl, List.getElem_map]

/-- The prediction at index `i` is `exp(x_i ^ 2)`. -/
lemma h_getD (x : List ℝ) (i : ℕ) (hi : i < x.length) :
    (h x).getD i 0 = Real.exp ((x.getD i 0) ^ 2) := by
  have h1 : i < (f1 x).length := by simpa [f1] using hi
  rw [h, f2, getD_map _ _ _ h1, f1, getD_map _ _ _ hi]

/-- The prediction list has the same length as the input list. -/
lemma h_length (x : List ℝ) : (h x).length = x.length := by
  simp [h, f1, f2]

/-- The loss is a sum of squares, hence nonnegative. -/
lemma L_nonneg (hv y : List ℝ) : 0 ≤ L hv y := by
  induction hv generalizing y with
  | nil => simp [L]
  | cons a t ih =>
    cases y with
    | nil => simp [L]
    | cons b u =>
      have hL : L (a :: t) (b :: u) = (a - b) ^ 2 + L t u := by simp [L]
      have := ih u
      nlinarith [sq_nonneg (a - b)]

/-- For equal-length vectors the loss vanishes exactly on equal vectors. -/
lemma L_eq_zero_iff (hv y : List ℝ) (hlen : hv.length = y.length) :
    L hv y = 0 ↔ hv = y := by
  induction hv generalizing y with
  | nil =>
    cases y with
    | nil => simp [L]
    | cons b u => simp at hlen
  | cons a t ih =>
    cases y with
    | nil => simp at hlen
    | cons b u =>
      have hlen' : t.length = u.length := by simpa using hlen
      have hL : L (a :: t) (b :: u) = (a - b) ^ 2 + L t u := by simp [L]
      constructor
      · intro h0
        have hLtu := L_nonneg t u
        have hsq : (0 : ℝ) ≤ (a - b) ^ 2 := sq_nonneg _
        rw [hL] at h0
        have h1 : (a - b) ^ 2 = 0 := by nlinarith
        have h2 : L t u = 0 := by nlinarith
        have hab : a = b := by
          have hd : a - b = 0 := (pow_eq_zero_iff (by norm_num)).mp h1
          linarith [sub_eq_zero.mp hd]
        have htu : t = u := (ih u hlen').mp h2
        rw [hab, htu]
      · intro heq
        cases heq
        have htu : L t t = 0 := by
          have : t = t := rfl
          exact (ih t rfl).mpr this
        simp [hL, htu]

/-- For equal-length vectors the closed-form gradient in `h` vanishes
exactly on equal vectors. -/
lemma grad_L_wrt_h_eq_zero_iff (hv y : List ℝ) (hlen : hv.length = y.length) :
    grad_L_wrt_h hv y = List.replicate hv.length 0 ↔ hv = y := by
  induction hv generalizing y with
  | nil =>
    cases y with
    | nil => simp [grad_L_wrt_h]
    | cons b u => simp at hlen
  | cons a t ih =>
    cases y with
    | nil => simp at hlen
    | cons b u =>
      have hlen' : t.length = u.length := by simpa using hlen
      have hg : grad_L_wrt_h (a :: t) (b :: u)
          = (2 * (a - b)) :: grad_L_wrt_h t u := by simp [grad_L_wrt_h]
      rw [hg]
      simp only [List.length_cons, List.replicate_succ, List.cons.injEq]
      constructor
      · rintro ⟨h1, h2⟩
        have hab : a = b := by linarith [sub_eq_zero.mp (by linarith : a - b = 0)]
        exact ⟨hab, (ih u hlen').mp h2⟩
      · rintro ⟨hab, htu⟩
        subst hab
        subst htu
        exact ⟨by ring, (ih t rfl).mpr rfl⟩

/-- The first stage on `Fin n`-indexed vectors (the same elementwise lambda
`f1 = lambda g: g ** 2`, restated for fixed dimension so that Jacobians can
be taken as genuine derivatives). -/
def f1Fun (n : ℕ) (x : Fin n → ℝ) : Fin n → ℝ := fun i => x i ^ 2

/-- The second stage on `Fin n`-indexed vectors (the elementwise lambda
`f2 = lambda g: np.exp(g)`). -/
def f2Fun (n : ℕ) (u : Fin n → ℝ) : Fin n → ℝ := fun i => Real.exp (u i)

/-- The sum-of-squares loss on `Fin n`-indexed vectors
(`L = lambda h, y: np.sum((h - y) ** 2)`). -/
def LFun (n : ℕ) (hv y : Fin n → ℝ) : ℝ := ∑ i, (hv i - y i) ^ 2

/-- The secondary cross-term example, from the notebook cell
`g = lambda v: v[::-1] * np.arange(1, v.size + 1)`: reversal of the vector
times the range `1..N`. -/
def gFun (n : ℕ) (v : Fin n → ℝ) : Fin n → ℝ := fun i => v i.rev * ((i : ℕ) + 1)

/-- The Jacobian of a vector-valued map at a point, entry `(i, j)` being the
partial derivative of output `i` with respect to input `j`. -/
def jacobianAt {n : ℕ} (F : (Fin n → ℝ) → Fin n → ℝ) (v : Fin n → ℝ) :
    Fin n → Fin n → ℝ :=
  fun i j => deriv (fun t => F (Function.update v j t) i) (v j)

/-- Matrix-vector product `M · p`. -/
def mulVec {n : ℕ} (M : Fin n → Fin n → ℝ) (p : Fin n → ℝ) : Fin n → ℝ :=
  fun i => ∑ j, M i j * p j

/-- Matrix transpose. -/
def transpose {n : ℕ} (M : Fin n → Fin n → ℝ) : Fin n → Fin n → ℝ :=
  fun i j => M j i

/-- VJP of `g`: transposed-Jacobian-vector product, which is what the
notebook's `make_vjp(g)` (reverse-mode backpropagation) computes. -/
def vjp_g {n : ℕ} (v p : Fin n → ℝ) : Fin n → ℝ :=
  mulVec (transpose (jacobianAt (gFun n) v)) p

/-- JVP of `g`: plain Jacobian-vector product, which is what the notebook's
`make_jvp_reversemode(g)` computes. -/
def jvp_g {n : ℕ} (v p : Fin n → ℝ) : Fin n → ℝ :=
  mulVec (jacobianAt (gFun n) v) p

/-- The Jacobian matrix formula the spec states for `g`, transcribed from the
spec's words for comparison: entry `(i, j)` is `(j+1)` if `i+j == N-1`,
else `0`. -/
def specJacobian_g (n : ℕ) : Fin n → Fin n → ℝ :=
  fun i j => if (i : ℕ) + (j : ℕ) = n - 1 then ((j : ℕ) + 1 : ℝ) else 0

/-- `rev i = j` exactly when the index pair lies on the antidiagonal. -/
lemma rev_eq_iff_antidiag {n : ℕ} (i j : Fin n) :
    i.rev = j ↔ (i : ℕ) + (j : ℕ) = n - 1 := by
  constructor
  · intro hc
    have := i.isLt
    have hval : (j : ℕ) = n - ((i : ℕ) + 1) := by rw [← hc, Fin.val_rev]
    omega
  · intro hc
    have hi := i.isLt
    have hj := j.isLt
    apply Fin.ext
    rw [Fin.val_rev]
    omega

/-- The Jacobian of `g`: entry `(i, j)` is `(i+1)` on the antidiagonal
`i + j = N - 1` and `0` elsewhere (the matrix `[[0, 1], [2, 0]]` of the
notebook at `N = 2`). -/
lemma jacobianAt_gFun {n : ℕ} (v : Fin n → ℝ) (i j : Fin n) :
    jacobianAt (gFun n) v i j
      = if (i : ℕ) + (j : ℕ) = n - 1 then ((i : ℕ) + 1 : ℝ) else 0 := by
  rw [jacobianAt]
  by_cases hc : i.rev = j
  · have hfun : (fun t => gFun n (Function.update v j t) i)
        = fun t => t * ((i : ℕ) + 1 : ℝ) := by
      funext t
      rw [gFun, hc, Function.update_same]
    rw [hfun, if_pos ((rev_eq_iff_antidiag i j).mp hc)]
    have hd := (hasDerivAt_id (v j)).mul_const ((i : ℕ) + 1 : ℝ)
    simp [hd.deriv]
  · have hfun : (fun t => gFun n (Function.update v j t) i)
        = fun _ => v i.rev * ((i : ℕ) + 1 : ℝ) := by
      funext t
      rw [gFun, Function.update_noteq hc]
    rw [hfun, if_neg (fun hd => hc ((rev_eq_iff_antidiag i j).mpr hd))]
    exact deriv_const _ _

/-- The Jacobian of the first stage is the notebook's hand-derived diagonal
matrix `J_f1_x = diag(2 * x_i)`. -/
lemma jacobianAt_f1Fun {n : ℕ} (x : Fin n → ℝ) (i j : Fin n) :
    jacobianAt (f1Fun n) x i j = if i = j then 2 * x i else 0 := by
  rw [jacobianAt]
  by_cases hc : i = j
  · subst hc
    have hfun : (fun t => f1Fun n (Function.update x i t) i) = fun t => t ^ 2 := by
      funext t
      rw [f1Fun]
      simp
    rw [hfun, if_pos rfl]
    have hd := hasDerivAt_pow 2 (x i)
    rw [hd.deriv]
    norm_num
  · have hfun : (fun t => f1Fun n (Function.update x j t) i)
        = fun _ => x i ^ 2 := by
      funext t
      rw [f1Fun]
      simp [Function.update_noteq hc]
    rw [hfun, if_neg hc]
    exact deriv_const _ _

/-- The Jacobian of the second stage is the notebook's hand-derived diagonal
matrix `J_f2_f1 = diag(exp(u_i))`. -/
lemma jacobianAt_f2Fun {n : ℕ} (u : Fin n → ℝ) (i j : Fin n) :
    jacobianAt (f2Fun n) u i j = if i = j then Real.exp (u i) else 0 := by
  rw [jacobianAt]
  by_cases hc : i = j
  · subst hc
    have hfun : (fun t => f2Fun n (Function.update u i t) i) = Real.exp := by
      funext t
      rw [f2Fun]
      simp
    rw [hfun, if_pos rfl, Real.deriv_exp]
  · have hfun : (fun t => f2Fun n (Function.update u j t) i)
        = fun _ => Real.exp (u i) := by
      funext t
      rw [f2Fun]
      simp [Function.update_noteq hc]
    rw [hfun, if_neg hc]
    exact deriv_const _ _

/-- The gradient of the loss in its first argument, as a vector of genuine
partial derivatives of `LFun`. -/
def gradLFun (n : ℕ) (hv y : Fin n → ℝ) : Fin n → ℝ :=
  fun i => deriv (fun t => LFun n (Function.update hv i t) y) (hv i)

/-- The partial derivatives of the sum-of-squares loss recover the
notebook's hand-derived closed form `2 * (h_i - y_i)`. -/
lemma gradLFun_eq {n : ℕ} (hv y : Fin n → ℝ) (i : Fin n) :
    gradLFun n hv y i = 2 * (hv i - y i) := by
  rw [gradLFun]
  have hd : HasDerivAt (fun t => LFun n (Function.update hv i t) y)
      (∑ k, if k = i then 2 * (hv i - y i) else 0) (hv i) := by
    apply HasDerivAt.sum
    intro k _
    by_cases hk : k = i
    · subst hk
      have hfun : (fun t => (Function.update hv k t k - y k) ^ 2)
          = fun t => (t - y k) ^ 2 := by
        funext t
        rw [Function.update_same]
      rw [if_pos rfl, hfun]
      have hder := ((hasDerivAt_id (hv k)).sub_const (y k)).pow 2
      simpa using hder
    · have hfun : (fun t => (Function.update hv i t k - y k) ^ 2)
          = fun _ => (hv k - y k) ^ 2 := by
        funext t
        rw [Function.update_noteq hk]
      rw [if_neg hk, hfun]
      exact hasDerivAt_const _ _
  rw [hd.deriv]
  simp

/-- The Hessian of the loss in `h`, entry `(i, j)` being the genuine second
partial derivative of `LFun` (the derivative of `gradLFun` in direction `j`). -/
def hessianL (n : ℕ) (hv y : Fin n → ℝ) : Fin n → Fin n → ℝ :=
  fun i j => deriv (fun t => gradLFun n (Function.update hv j t) y i) (hv j)

/-- The Hessian of the sum-of-squares loss is the constant matrix `2 * I`
(the notebook's `diag(2)`). -/
lemma hessianL_eq {n : ℕ} (hv y : Fin n → ℝ) (i j : Fin n) :
    hessianL n hv y i j = if i = j then 2 else 0 := by
  rw [hessianL]
  have hfun : (fun t => gradLFun n (Function.update hv j t) y i)
      = fun t => 2 * (Function.update hv j t i - y i) := by
    funext t
    rw [gradLFun_eq]
  rw [hfun]
  by_cases hc : i = j
  · subst hc
    have hfun2 : (fun t => 2 * (Function.update hv i t i - y i))
        = fun t => 2 * (t - y i) := by
      funext t
      rw [Function.update_same]
    rw [hfun2, if_pos rfl]
    have hd : HasDerivAt (fun t => 2 * (t - y i)) 2 (hv i) := by
      have hc2 := ((hasDerivAt_id (hv i)).sub_const (y i)).const_mul (2 : ℝ)
      simpa using hc2
    rw [hd.deriv]
  · have hfun2 : (fun t => 2 * (Function.update hv j t i - y i))
        = fun _ => 2 * (hv i - y i) := by
      funext t
      rw [Function.update_noteq hc]
    rw [hfun2, if_neg hc]
    exact deriv_const _ _

/-- Hessian-vector product of the loss in `h`: the Hessian applied to `v`. -/
def hvp_L_wrt_h {n : ℕ} (hv y v : Fin n → ℝ) : Fin n → ℝ :=
  mulVec (hessianL n hv y) v

/-- The Hessian-vector product is `2 * v`, whatever `h` and `y` are. -/
lemma hvp_L_wrt_h_eq {n : ℕ} (hv y v : Fin n → ℝ) :
    hvp_L_wrt_h hv y v = fun i => 2 * v i := by
  funext i
  rw [hvp_L_wrt_h, mulVec]
  have hterm : ∀ j, hessianL n hv y i j * v j = if j = i then 2 * v j else 0 := by
    intro j
    rw [hessianL_eq]
    by_cases hc : i = j
    · subst hc
      simp
    · rw [if_neg hc, if_neg (fun hd => hc hd.symm)]
      ring
  calc (∑ j, hessianL n hv y i j * v j) = ∑ j, if j = i then 2 * v j else 0 := by
        exact Finset.sum_congr rfl (fun j _ => hterm j)
    _ = 2 * v i := by simp

/-- Applying a matrix to a one-hot vector reads off a column. -/
lemma mulVec_single {n : ℕ} (M : Fin n → Fin n → ℝ) (i j : Fin n) :
    mulVec M (Pi.single j 1) i = M i j := by
  rw [mulVec]
  have h0 : ∀ k ∈ Finset.univ, k ≠ j →
      M i k * (Pi.single j 1 : Fin n → ℝ) k = 0 := by
    intro k _ hk
    simp [Pi.single_apply, hk]
  have h1 : j ∉ Finset.univ → M i j * (Pi.single j 1 : Fin n → ℝ) j = 0 := by
    intro hj
    exact absurd (Finset.mem_univ j) hj
  rw [Finset.sum_eq_single j h0 h1]
  simp

/-- The evaluated VJP of `g` at the notebook's point: `[2, 1]`. -/
lemma vjp_g_concrete : vjp_g ![(1 : ℝ), 2] ![1, 1] = ![2, 1] := by
  funext i
  rw [vjp_g]
  fin_cases i <;>
    norm_num [mulVec, transpose, jacobianAt_gFun, Fin.sum_univ_two]

/-- The evaluated JVP of `g` at the notebook's point: `[1, 2]`. -/
lemma jvp_g_concrete : jvp_g ![(1 : ℝ), 2] ![1, 1] = ![1, 2] := by
  funext i
  rw [jvp_g]
  fin_cases i <;>
    norm_num [mulVec, jacobianAt_gFun, Fin.sum_univ_two]

/-- C6: the forward pass squares each input component, exponentiates it for
the prediction, and the loss is the index-wise sum of squared differences. -/
theorem forward_and_loss_spec (x : List ℝ) (i : ℕ) (hi : i < x.length)
    (hv y : List ℝ) (hlen : hv.length = y.length) :
    (forward x).1.getD i 0 = (x.getD i 0) ^ 2 ∧
    (forward x).2.getD i 0 = Real.exp ((x.getD i 0) ^ 2) ∧
    L hv y = ∑ k ∈ Finset.range hv.length, (hv.getD k 0 - y.getD k 0) ^ 2 := by
  refine ⟨?_, ?_, ?_⟩
  · simp [forward, f1, List.getD_eq_getElem, hi]
  · have hi1 : i < (f1 x).length := by simpa [f1] using hi
    have hi2 : i < (h x).length := by simpa [h, f2, f1] using hi
    simp [forward, h, f2, f1, List.getD_eq_getElem, hi, hi1, hi2]
  · clear hi
    induction hv generalizing y with
    | nil => simp [L]
    | cons a t ih =>
      cases y with
      | nil => simp at hlen
      | cons b u =>
        have hlen' : t.length = u.length := by simpa using hlen
        have hsum := ih u hlen'
        simp only [List.length_cons]
        rw [Finset.sum_range_succ']
        simp only [List.getD_cons_succ, List.getD_cons_zero]
        have : L (a :: t) (b :: u) = (a - b) ^ 2 + L t u := by
          simp [L]
        rw [this, hsum]
        ring

/-- C6 witness at `x = [1, 2]`, `i = 0`, `hv = [3]`, `y = [5]`. -/
theorem forward_and_loss_spec_witness :
    (forward [1, 2]).1.getD 0 0 = ((1 : ℝ)) ^ 2 ∧
    (forward [1, 2]).2.getD 0 0 = Real.exp (((1 : ℝ)) ^ 2) ∧
    L [3] [5] = ∑ k ∈ Finset.range 1,
      (List.getD [(3 : ℝ)] k 0 - List.getD [(5 : ℝ)] k 0) ^ 2 := by
  have := forward_and_loss_spec [1, 2] 0 (by simp) [3] [5] (by simp)
  simpa using this

/-- C1: for equal-length `x` and `y`, composing the stepwise backward passes
on `grad_L_wrt_h (forward x).2 y` agrees elementwise with `grad_L_wrt_x`,
whose closed form is `4 * (h_i - y_i) * h_i * x_i` (chain-rule consistency). -/
theorem chain_rule_consistency (x y : List ℝ) (hlen : x.length = y.length)
    (i : ℕ) (hi : i < x.length) :
    (vjp_f1_wrt_x x (vjp_h_wrt_f1 x (grad_L_wrt_h (forward x).2 y))).getD i 0
      = (grad_L_wrt_x x y).getD i 0 ∧
    (grad_L_wrt_x x y).getD i 0
      = 4 * ((h x).getD i 0 - y.getD i 0) * (h x).getD i 0 * x.getD i 0 := by
  constructor
  · rfl
  · have hiy : i < y.length := hlen ▸ hi
    have hih : i < (h x).length := by rw [h_length]; exact hi
    have hg : i < (grad_L_wrt_h (h x) y).length := by
      rw [grad_L_wrt_h, List.length_zipWith]; omega
    have hv1 : i < (vjp_h_wrt_f1 x (grad_L_wrt_h (h x) y)).length := by
      rw [vjp_h_wrt_f1, List.length_zipWith]; omega
    rw [grad_L_wrt_x, vjp_f1_wrt_x, getD_zipWith _ _ _ _ hi hv1,
      vjp_h_wrt_f1, getD_zipWith _ _ _ _ hi hg,
      grad_L_wrt_h, getD_zipWith _ _ _ _ hih hiy, h_getD x i hi]
    ring

/-- C1 witness at `x = [1, 2]`, `y = [3, 4]`, `i = 0`. -/
theorem chain_rule_consistency_witness :
    (vjp_f1_wrt_x [1, 2]
        (vjp_h_wrt_f1 [1, 2] (grad_L_wrt_h (forward [1, 2]).2 [3, 4]))).getD 0 0
      = (grad_L_wrt_x [1, 2] [3, 4]).getD 0 0 ∧
    (grad_L_wrt_x [1, 2] [3, 4]).getD 0 0
      = 4 * ((h [1, 2]).getD 0 0 - List.getD [(3 : ℝ), 4] 0 0)
          * (h [1, 2]).getD 0 0 * List.getD [(1 : ℝ), 2] 0 0 :=
  chain_rule_consistency [1, 2] [3, 4] (by simp) 0 (by simp)

/-- C8: each two-vector oracle operation signals `InvalidInput` (here `none`)
exactly on mismatched lengths, and on matched lengths returns the pure
computation with no other error condition. -/
theorem invalid_input_iff_mismatch (a b : List ℝ) :
    (lossE a b = none ↔ a.length ≠ b.length) ∧
    (grad_L_wrt_hE a b = none ↔ a.length ≠ b.length) ∧
    (vjp_h_wrt_f1E a b = none ↔ a.length ≠ b.length) ∧
    (vjp_f1_wrt_xE a b = none ↔ a.length ≠ b.length) ∧
    (a.length = b.length →
      lossE a b = some (L a b) ∧
      grad_L_wrt_hE a b = some (grad_L_wrt_h a b) ∧
      vjp_h_wrt_f1E a b = some (vjp_h_wrt_f1 a b) ∧
      vjp_f1_wrt_xE a b = some (vjp_f1_wrt_x a b)) := by
  refine ⟨?_, ?_, ?_, ?_, ?_⟩ <;>
    simp [lossE, grad_L_wrt_hE, vjp_h_wrt_f1E, vjp_f1_wrt_xE]

/-- C8 witness: a mismatched pair is rejected and a matched pair is accepted. -/
theorem invalid_input_iff_mismatch_witness :
    lossE [1] [2, 3] = none ∧ lossE [1, 2] [3, 4] = some (L [1, 2] [3, 4]) :=
  ⟨(invalid_input_iff_mismatch [1] [2, 3]).1.mpr (by simp),
    ((invalid_input_iff_mismatch [1, 2] [3, 4]).2.2.2.2 (by simp)).1⟩

/-- C9: the forward outputs are elementwise bounded, `f1_i = x_i^2 ≥ 0` and
`h_i = exp(x_i^2) ≥ 1 > 0`; hence the prediction can never equal a target
with a non-positive component. -/
theorem forward_outputs_bounded (x : List ℝ) (i : ℕ) (hi : i < x.length)
    (y : List ℝ) (j : ℕ) (hj : j < y.length) (hy : y.getD j 0 ≤ 0) :
    0 ≤ (forward x).1.getD i 0 ∧ 1 ≤ (forward x).2.getD i 0 ∧
    0 < (forward x).2.getD i 0 ∧ (forward x).2 ≠ y := by
  have hf1 : (forward x).1.getD i 0 = (x.getD i 0) ^ 2 := by
    rw [forward, f1, getD_map _ _ _ hi]
  have hh : (forward x).2.getD i 0 = Real.exp ((x.getD i 0) ^ 2) :=
    h_getD x i hi
  have hone : 1 ≤ (forward x).2.getD i 0 := by
    rw [hh]; exact Real.one_le_exp (sq_nonneg _)
  refine ⟨by rw [hf1]; exact sq_nonneg _, hone, by linarith, ?_⟩
  intro heq
  have hjx : j < x.length := by
    have hly : (h x).length = y.length := by
      show (forward x).2.length = y.length
      rw [heq]
    rw [h_length] at hly; omega
  have hyj : y.getD j 0 = Real.exp ((x.getD j 0) ^ 2) := by
    rw [← heq]; exact h_getD x j hjx
  have : (0 : ℝ) < y.getD j 0 := by rw [hyj]; exact Real.exp_pos _
  linarith

/-- C9 witness at `x = [1, 2]`, `i = 0`, `y = [-1, 0]`, `j = 0`. -/
theorem forward_outputs_bounded_witness :
    0 ≤ (forward [1, 2]).1.getD 0 0 ∧ 1 ≤ (forward [1, 2]).2.getD 0 0 ∧
    0 < (forward [1, 2]).2.getD 0 0 ∧ (forward [1, 2]).2 ≠ [-1, 0] :=
  forward_outputs_bounded [1, 2] 0 (by simp) [-1, 0] 0 (by simp) (by norm_num)

/-- C10: for equal-length vectors the loss is nonnegative, vanishes exactly
when `h = y`, and `grad_L_wrt_h` is the zero vector exactly when `h = y`. -/
theorem loss_nonneg_and_zero_iff (hv y : List ℝ) (hlen : hv.length = y.length) :
    0 ≤ L hv y ∧ (L hv y = 0 ↔ hv = y) ∧
    (grad_L_wrt_h hv y = List.replicate hv.length 0 ↔ hv = y) :=
  ⟨L_nonneg hv y, L_eq_zero_iff hv y hlen, grad_L_wrt_h_eq_zero_iff hv y hlen⟩

/-- C10 witness at `hv = [1, 2]`, `y = [1, 3]`. -/
theorem loss_nonneg_and_zero_iff_witness :
    0 ≤ L [1, 2] [1, 3] ∧ (L [1, 2] [1, 3] = 0 ↔ [(1 : ℝ), 2] = [1, 3]) ∧
    (grad_L_wrt_h [1, 2] [1, 3] = List.replicate (List.length [(1 : ℝ), 2]) 0 ↔
      [(1 : ℝ), 2] = [1, 3]) :=
  loss_nonneg_and_zero_iff [1, 2] [1, 3] (by simp)

/-- Rational bounds on `exp(1)^2`, from Mathlib's 9-digit bounds on `exp 1`. -/
lemma exp_one_sq_bounds :
    (7.389056098 : ℝ) < Real.exp 1 ^ 2 ∧ Real.exp 1 ^ 2 < 7.3890561 := by
  have he1 := Real.exp_one_gt_d9
  have he2 := Real.exp_one_lt_d9
  constructor <;> nlinarith [he1, he2]

/-- Rational bounds on `exp(1)^4`. -/
lemma exp_one_pow4_bounds :
    (54.59815000 : ℝ) < Real.exp 1 ^ 4 ∧ Real.exp 1 ^ 4 < 54.59815006 := by
  obtain ⟨h1, h2⟩ := exp_one_sq_bounds
  have hp : Real.exp 1 ^ 4 = (Real.exp 1 ^ 2) ^ 2 := by ring
  rw [hp]
  constructor <;> nlinarith [h1, h2]

/-- `exp 4` as the fourth power of `exp 1`. -/
lemma exp_four_eq : Real.exp 4 = Real.exp 1 ^ 4 := by
  rw [← Real.exp_nat_mul]
  norm_num

/-- The loss at the notebook's sample point, reduced to a closed scalar form. -/
lemma L_concrete_reduction :
    L (forward [1, 2]).2 [9.48773584, 518.01282467]
      = (Real.exp 1 - 9.48773584) ^ 2 + (Real.exp 4 - 518.01282467) ^ 2 := by
  norm_num [forward, h, f2, f1, L]

/-- The gradient in `h` at the notebook's sample point, in closed form. -/
lemma grad_L_wrt_h_concrete_reduction :
    grad_L_wrt_h (forward [1, 2]).2 [9.48773584, 518.01282467]
      = [2 * (Real.exp 1 - 9.48773584), 2 * (Real.exp 4 - 518.01282467)] := by
  norm_num [forward, h, f2, f1, grad_L_wrt_h]

/-- C2 counterexample: at `N = 2`, `v = [1, 2]`, the Jacobian of `g` is not
the matrix the spec's formula `J[i][j] = (j+1)` on the antidiagonal gives
(entry `(1, 0)` is `2` for `g` but `1` for the formula), and the VJP the
spec's matrix would give at `p = [1, 1]` disagrees with `vjp_g`. -/
theorem spec_jacobian_g_formula_refuted :
    jacobianAt (gFun 2) ![1, 2] 1 0 = 2 ∧
    specJacobian_g 2 1 0 = 1 ∧
    jacobianAt (gFun 2) ![1, 2] ≠ specJacobian_g 2 ∧
    vjp_g ![(1 : ℝ), 2] ![1, 1] ≠ mulVec (transpose (specJacobian_g 2)) ![1, 1] := by
  have he1 : jacobianAt (gFun 2) ![(1 : ℝ), 2] 1 0 = 2 := by
    rw [jacobianAt_gFun]
    norm_num
  have he2 : specJacobian_g 2 1 0 = 1 := by
    rw [specJacobian_g]
    norm_num
  refine ⟨he1, he2, ?_, ?_⟩
  · intro heq
    have hent := congrFun (congrFun heq 1) 0
    rw [he1, he2] at hent
    norm_num at hent
  · intro heq
    have hent := congrFun heq 0
    rw [vjp_g_concrete] at hent
    have hrhs : mulVec (transpose (specJacobian_g 2)) ![(1 : ℝ), 1] 0 = 1 := by
      rw [mulVec, Fin.sum_univ_two]
      simp [transpose, specJacobian_g]
    rw [hrhs] at hent
    norm_num at hent

/-- C2 (amended): the Jacobian of `g` at every `v` of length `N` has entry
`(i, j)` equal to `(i+1)` when `i + j = N - 1` and `0` otherwise, and
`vjp_g` and `jvp_g` are respectively the transposed-Jacobian- and
Jacobian-vector products with this matrix, for every `p`. -/
theorem jacobian_g_amended {n : ℕ} (v p : Fin n → ℝ) (i j : Fin n) :
    jacobianAt (gFun n) v i j
      = (if (i : ℕ) + (j : ℕ) = n - 1 then ((i : ℕ) + 1 : ℝ) else 0) ∧
    vjp_g v p j
      = ∑ k : Fin n, (if (k : ℕ) + (j : ℕ) = n - 1 then ((k : ℕ) + 1 : ℝ) else 0) * p k ∧
    jvp_g v p i
      = ∑ k : Fin n, (if (i : ℕ) + (k : ℕ) = n - 1 then ((i : ℕ) + 1 : ℝ) else 0) * p k := by
  refine ⟨jacobianAt_gFun v i j, ?_, ?_⟩
  · simp only [vjp_g, mulVec, transpose, jacobianAt_gFun]
  · simp only [jvp_g, mulVec, jacobianAt_gFun]

/-- C3: at `v = [1, 2]` and `p = [1, 1]`, the VJP of `g` is `[2, 1]` and the
JVP of `g` is `[1, 2]`, as printed by the notebook. -/
theorem vjp_jvp_g_concrete_values :
    vjp_g ![(1 : ℝ), 2] ![1, 1] = ![2, 1] ∧
    jvp_g ![(1 : ℝ), 2] ![1, 1] = ![1, 2] :=
  ⟨vjp_g_concrete, jvp_g_concrete⟩

/-- C4: the Hessian-vector product of the loss with respect to `h` is
`2 * v` elementwise for every `v`, independent of `h` and `y`; in
particular at `v = [1, 2]` it is `[2, 4]` for any `h`, `y`. -/
theorem hvp_L_is_double {n : ℕ} (hv y v : Fin n → ℝ) (hv2 y2 : Fin 2 → ℝ) :
    hvp_L_wrt_h hv y v = (fun i => 2 * v i) ∧
    hvp_L_wrt_h hv2 y2 ![1, 2] = ![2, 4] := by
  refine ⟨hvp_L_wrt_h_eq hv y v, ?_⟩
  rw [hvp_L_wrt_h_eq hv2 y2]
  funext i
  fin_cases i <;> norm_num

/-- C5: the VJP and JVP of `g` differ at the demonstrated point `v = [1, 2]`,
`p = [1, 1]`, where the Jacobian of `g` is not symmetric; whenever the
Jacobian of `g` is symmetric the VJP and JVP agree for every `p` (and
conversely agreement for every `p` forces symmetry); and the stage Jacobians
of the main `h(x)` example are diagonal, so their transposed and plain
products coincide at every `x` and `v`. -/
theorem vjp_vs_jvp_symmetry :
    jacobianAt (gFun 2) ![(1 : ℝ), 2] ≠ transpose (jacobianAt (gFun 2) ![(1 : ℝ), 2]) ∧
    vjp_g ![(1 : ℝ), 2] ![1, 1] ≠ jvp_g ![(1 : ℝ), 2] ![1, 1] ∧
    (∀ (n : ℕ) (v p : Fin n → ℝ),
      transpose (jacobianAt (gFun n) v) = jacobianAt (gFun n) v →
      vjp_g v p = jvp_g v p) ∧
    (∀ (n : ℕ) (v : Fin n → ℝ),
      (∀ p, vjp_g v p = jvp_g v p) →
      transpose (jacobianAt (gFun n) v) = jacobianAt (gFun n) v) ∧
    (∀ (n : ℕ) (x : Fin n → ℝ) (i j : Fin n), i ≠ j →
      jacobianAt (f2Fun n) (f1Fun n x) i j = 0 ∧ jacobianAt (f1Fun n) x i j = 0) ∧
    (∀ (n : ℕ) (x v : Fin n → ℝ),
      mulVec (transpose (jacobianAt (f2Fun n) (f1Fun n x))) v
        = mulVec (jacobianAt (f2Fun n) (f1Fun n x)) v ∧
      mulVec (transpose (jacobianAt (f1Fun n) x)) v
        = mulVec (jacobianAt (f1Fun n) x) v) := by
  have hdiag_symm : ∀ (n : ℕ) (M : Fin n → Fin n → ℝ) (d : Fin n → ℝ),
      (∀ i j, M i j = if i = j then d i else 0) → transpose M = M := by
    intro n M d hM
    funext i j
    rw [transpose, hM, hM]
    by_cases hc : i = j
    · subst hc
      rfl
    · rw [if_neg hc, if_neg (fun hd => hc hd.symm)]
  refine ⟨?_, ?_, ?_, ?_, ?_, ?_⟩
  · intro heq
    have hent := congrFun (congrFun heq 1) 0
    rw [jacobianAt_gFun] at hent
    rw [transpose, jacobianAt_gFun] at hent
    norm_num at hent
  · intro heq
    rw [vjp_g_concrete, jvp_g_concrete] at heq
    have hent := congrFun heq 0
    norm_num at hent
  · intro n v p hsymm
    rw [vjp_g, jvp_g, hsymm]
  · intro n v hall
    funext j i
    have happ := congrFun (hall (Pi.single i 1)) j
    rw [vjp_g, jvp_g, mulVec_single, mulVec_single] at happ
    exact happ
  · intro n x i j hij
    exact ⟨by rw [jacobianAt_f2Fun, if_neg hij], by rw [jacobianAt_f1Fun, if_neg hij]⟩
  · intro n x v
    have h2 : transpose (jacobianAt (f2Fun n) (f1Fun n x))
        = jacobianAt (f2Fun n) (f1Fun n x) :=
      hdiag_symm n _ (fun i => Real.exp (f1Fun n x i)) (jacobianAt_f2Fun _)
    have h1 : transpose (jacobianAt (f1Fun n) x) = jacobianAt (f1Fun n) x :=
      hdiag_symm n _ (fun i => 2 * x i) (jacobianAt_f1Fun _)
    rw [h1, h2]
    exact ⟨rfl, rfl⟩

/-- C7: at `x = [1, 2]`, `y = [9.48773584, 518.01282467]` the loss is
`214798.986` to within the spec's relative tolerance of `1e-4`, and the
gradient in `h` is `[-13.53890802, -926.82934927]` to within `1e-4`. -/
theorem concrete_loss_and_grad_values :
    |L (forward [1, 2]).2 [9.48773584, 518.01282467] - 214798.986|
      ≤ 214798.986 * (1 / 10000) ∧
    |(grad_L_wrt_h (forward [1, 2]).2 [9.48773584, 518.01282467]).getD 0 0
      - (-13.53890802)| ≤ 1 / 10000 ∧
    |(grad_L_wrt_h (forward [1, 2]).2 [9.48773584, 518.01282467]).getD 1 0
      - (-926.82934927)| ≤ 1 / 10000 := by
  have he1 := Real.exp_one_gt_d9
  have he2 := Real.exp_one_lt_d9
  obtain ⟨hu1, hu2⟩ := exp_one_pow4_bounds
  have ht1_lo : (45.825507 : ℝ) < (Real.exp 1 - 9.48773584) ^ 2 := by
    nlinarith [he1, he2]
  have ht1_hi : (Real.exp 1 - 9.48773584) ^ 2 < (45.825508 : ℝ) := by
    nlinarith [he1, he2]
  have ht2_lo : (214753.160 : ℝ) < (Real.exp 1 ^ 4 - 518.01282467) ^ 2 := by
    nlinarith [hu1, hu2]
  have ht2_hi : (Real.exp 1 ^ 4 - 518.01282467) ^ 2 < (214753.161 : ℝ) := by
    nlinarith [hu1, hu2]
  refine ⟨?_, ?_, ?_⟩
  · rw [L_concrete_reduction, exp_four_eq, abs_le]
    constructor <;> nlinarith [ht1_lo, ht1_hi, ht2_lo, ht2_hi]
  · rw [grad_L_wrt_h_concrete_reduction]
    simp only [List.getD_cons_zero]
    rw [abs_le]
    constructor <;> linarith
  · rw [grad_L_wrt_h_concrete_reduction]
    simp only [List.getD_cons_succ, List.getD_cons_zero, exp_four_eq]
    rw [abs_le]
    constructor <;> linarith

/-- C5 witness: at `N = 1` the Jacobian of `g` is the symmetric `1 × 1`
matrix `[[1]]`, and the VJP and JVP coincide there. -/
theorem vjp_vs_jvp_symmetry_witness :
    vjp_g ![(5 : ℝ)] ![3] = jvp_g ![(5 : ℝ)] ![3] := by
  have hsymm : transpose (jacobianAt (gFun 1) ![(5 : ℝ)])
      = jacobianAt (gFun 1) ![(5 : ℝ)] := by
    funext i j
    rw [transpose]
    congr 1 <;> exact Subsingleton.elim _ _
  exact (vjp_vs_jvp_symmetry.2.2.1) 1 ![(5 : ℝ)] ![3] hsymm

end Oracle

end
